import Mathlib

/-!
Verification of the ArtNetLab Art-Net engine core.

The definitions below are a shallow embedding of the Rust sources:
* `src-tauri/src/artnet.rs` — the ArtDMX packet codec;
* `src-tauri/src/state.rs`  — the buffered recorder (ring) and its operations;
* `src-tauri/src/main.rs`   — the command-surface wrappers that are in scope.

Machine bytes are modelled as `Nat` (with explicit `< 256` bounds where a
property needs byte-ness); fallible operations return `Except`/`Option`.
-/

/-! ## Definitions -/

/-- The 8 bytes of the zero-terminated identifier string `Art-Net\0`
(`ARTNET_ID` in artnet.rs). -/
def ARTNET_ID : List Nat := [0x41, 0x72, 0x74, 0x2d, 0x4e, 0x65, 0x74, 0x00]

/-- ArtDMX OpCode (`OP_OUTPUT` in artnet.rs). -/
def OP_OUTPUT : Nat := 0x5000

/-- Protocol version sent on encode (`PROT_VER` in artnet.rs). -/
def PROT_VER : Nat := 14

/-- `SenderConfig` from artnet.rs. The Rust struct also carries a
`target_ip : String` used only for socket addressing, which is outside the
codec and omitted here. -/
structure SenderConfig where
  port : Nat
  net : Nat
  subnet : Nat
  /-- the source field is named `universe`, a Lean keyword -/
  univ : Nat
  fps : Nat
deriving Repr, DecidableEq

/-- `DmxFrame` from artnet.rs: a parsed ArtDMX frame. -/
structure DmxFrame where
  net : Nat
  subnet : Nat
  /-- the source field is named `universe`, a Lean keyword -/
  univ : Nat
  length : Nat
  sequence : Nat
  physical : Nat
  values : List Nat
deriving Repr, DecidableEq

/-- The four failure messages of `parse_artdmx`
("Packet too short", "Not Art-Net", "Unsupported OpCode", "Length mismatch"). -/
inductive ParseError where
  | shortPacket
  | notArtNet
  | unsupportedOp
  | lengthMismatch
deriving Repr, DecidableEq

/-- The `last` accumulator of the scan loop at the top of
`compute_dmx_length`: the loop sets `last := i + 1` at every non-zero byte,
so the result is one past the index of the last non-zero byte
(0 when every byte is 0). -/
def lastNonzero (data : List Nat) : Nat :=
  data.enum.foldl (fun last iv => if iv.2 ≠ 0 then iv.1 + 1 else last) 0

/-- `compute_dmx_length` from artnet.rs: trailing zeros are trimmed, an
all-zero buffer is sent full-length, the result is forced even and capped
at 512. -/
def compute_dmx_length (data : List Nat) : Nat :=
  let last := lastNonzero data
  let len := if last = 0 then 512 else if last < 2 then 2 else last
  let len := if len % 2 = 1 then len + 1 else len
  if len > 512 then 512 else len

/-- `encode_artdmx` from artnet.rs. Byte layout: 8-byte ID, OpCode
little-endian, ProtVer big-endian, sequence, physical 0, SubUni, Net,
Length big-endian, then the first `length` data bytes. -/
def encode_artdmx (cfg : SenderConfig) (data : List Nat) (sequence : Nat) : List Nat :=
  let length := compute_dmx_length data
  let sub := cfg.subnet &&& 0x0f
  let uni := cfg.univ &&& 0x0f
  let subuni := (sub <<< 4) ||| uni
  ARTNET_ID ++
    [OP_OUTPUT % 256, OP_OUTPUT / 256] ++
    [PROT_VER / 256, PROT_VER % 256] ++
    [sequence, 0, subuni, cfg.net &&& 0x7f] ++
    [length / 256, length % 256] ++
    data.take length

/-- `parse_artdmx` from artnet.rs. Total model of the Rust function: the
slice reads `buf[8]`, `buf[9]`, `buf[12..=17]` are all guarded by the
initial `buf.len() < 18` check, so `getD` with default 0 is exact. -/
def parse_artdmx (buf : List Nat) : Except ParseError DmxFrame :=
  if buf.length < 18 then .error .shortPacket
  else if buf.take 8 ≠ ARTNET_ID then .error .notArtNet
  else
    let op := buf.getD 8 0 + 256 * buf.getD 9 0
    if op ≠ OP_OUTPUT then .error .unsupportedOp
    else
      let sequence := buf.getD 12 0
      let physical := buf.getD 13 0
      let subuni := buf.getD 14 0
      let net := buf.getD 15 0
      let len := 256 * buf.getD 16 0 + buf.getD 17 0
      if buf.length < 18 + len then .error .lengthMismatch
      else .ok {
        net := net
        subnet := (subuni >>> 4) &&& 0x0f
        univ := subuni &&& 0x0f
        length := len
        sequence := sequence
        physical := physical
        values := (buf.drop 18).take len }

/-- Structural form of the scan loop inside `compute_dmx_length`: `n` is the
buffer index of the head of `l`, `acc` the value of `last` so far. -/
def lastNZAux : List Nat → Nat → Nat → Nat
  | [], _, acc => acc
  | v :: rest, n, acc => lastNZAux rest (n + 1) (if v ≠ 0 then n + 1 else acc)

/-- "Rounded up to the next even number", as the spec words the encode
length policy. -/
def roundUpEven (x : Nat) : Nat := x + x % 2

/-- A concrete valid ArtDMX packet: declared length 2, payload `[7, 0]`. -/
def samplePacket : List Nat :=
  [0x41, 0x72, 0x74, 0x2d, 0x4e, 0x65, 0x74, 0x00,
   0x00, 0x50, 0x00, 0x0e, 9, 0, 0x23, 1, 0, 2, 7, 0]

/-- The frame `samplePacket` decodes to. -/
def sampleFrame : DmxFrame :=
  { net := 1, subnet := 2, univ := 3, length := 2, sequence := 9, physical := 0,
    values := [7, 0] }

/-- A 19-byte packet with valid ID and OpCode whose Net byte is 255 and
whose declared big-endian length is 1. -/
def rawNetPacket : List Nat :=
  [0x41, 0x72, 0x74, 0x2d, 0x4e, 0x65, 0x74, 0x00,
   0x00, 0x50, 0x00, 0x0e, 0, 0, 0, 255, 0, 1, 42]

/-- `MAX_RECORD_FRAMES` from state.rs. -/
def MAX_RECORD_FRAMES : Nat := 200000

/-- `RecordBuffer` from state.rs. The Rust struct also holds
`start : Instant`, the wall-clock origin used to compute each append's
`elapsed_ms`; time is modelled by passing the elapsed value to `append`
explicitly. -/
structure RecordBuffer where
  channels : List Nat
  timestamps : List Nat
  values : List (List Nat)
  addresses : List (Nat × Nat × Nat)
  active : Bool
deriving Repr, DecidableEq

/-- `RecordBuffer::new` from state.rs: one empty column per channel. -/
def RecordBuffer.new (channels : List Nat) (active : Bool) : RecordBuffer :=
  { channels := channels
    timestamps := []
    values := channels.map (fun _ => [])
    addresses := []
    active := active }

/-- `self.channels.iter().position(|c| c == ch)`. -/
def positionOf (target : Nat) : List Nat → Option Nat
  | [] => none
  | c :: rest => if c = target then some 0 else (positionOf target rest).map (· + 1)

/-- `RecordBuffer::set_channels` from state.rs: for each new channel reuse
the existing column when present, else a zero-filled column of the current
frame count. In Rust, `self.values[idx]` is indexed directly (`position`
returns an index below `|channels|`, in bounds whenever
`|values| = |channels|`); the total model reads it with `get?` and a `[]`
default. -/
def RecordBuffer.set_channels (b : RecordBuffer) (channels : List Nat) : RecordBuffer :=
  let frame_count := b.timestamps.length
  { b with
    channels := channels
    values := channels.map (fun ch =>
      match positionOf ch b.channels with
      | some idx => (b.values.get? idx).getD []
      | none => List.replicate frame_count 0) }

/-- `MAX_RECORD_FRAMES` enforcement (`RecordBuffer::enforce_limit`): drop
the oldest `N - MAX_RECORD_FRAMES` entries from timestamps, addresses, and
every column (a column not longer than the drop count is cleared). -/
def RecordBuffer.enforce_limit (b : RecordBuffer) : RecordBuffer :=
  if b.timestamps.length ≤ MAX_RECORD_FRAMES then b
  else
    let dropCount := b.timestamps.length - MAX_RECORD_FRAMES
    { b with
      timestamps := b.timestamps.drop dropCount
      addresses := b.addresses.drop dropCount
      values := b.values.map (fun col =>
        if dropCount < col.length then col.drop dropCount else []) }

/-- The value `RecordBuffer::append` records for channel `ch` of a frame:
`frame.values[ch]` when in range, else 0. -/
def sampleOf (ch : Nat) (frame : DmxFrame) : Nat :=
  if ch < frame.values.length then frame.values.getD ch 0 else 0

/-- The column-push loop in `RecordBuffer::append`: walk the channel list
with its index and push the sampled value onto the column at that index
(`values.get_mut(idx)`); columns beyond the channel list are untouched and
channels beyond the column list have no effect, exactly as in the source. -/
def pushColumns (frame : DmxFrame) : List (List Nat) → List Nat → List (List Nat)
  | cols, [] => cols
  | [], _ => []
  | col :: cols, ch :: chans =>
      (col ++ [sampleOf ch frame]) :: pushColumns frame cols chans

/-- `RecordBuffer::append` from state.rs; `elapsed` is the measured
`elapsed_ms` since the recorder origin. -/
def RecordBuffer.append (b : RecordBuffer) (frame : DmxFrame) (elapsed : Nat) : RecordBuffer :=
  if !b.active then b
  else
    RecordBuffer.enforce_limit
      { b with
        timestamps := b.timestamps ++ [elapsed]
        addresses := b.addresses ++ [(frame.net, frame.subnet, frame.univ)]
        values := pushColumns frame b.values b.channels }

/-- `normalize_channels` from state.rs: drop entries ≥ 512 and duplicates,
preserving first-occurrence order. -/
def normalize_channels (channels : List Nat) : List Nat :=
  channels.foldl (fun result ch =>
    if ch < 512 ∧ ch ∉ result then result ++ [ch] else result) []

/-- `RecordBuffer::frame_count` from state.rs. -/
def RecordBuffer.frame_count (b : RecordBuffer) : Nat := b.timestamps.length

/-- `RecordBuffer::duration_ms` from state.rs
(`timestamps.last().copied().unwrap_or(0)`). -/
def RecordBuffer.duration_ms (b : RecordBuffer) : Nat :=
  b.timestamps.getLast?.getD 0

structure PreviewPoint where
  t_ms : Nat
  value : Nat
deriving Repr, DecidableEq

structure PreviewResponse where
  points : List PreviewPoint
  frame_count : Nat
  duration_ms : Nat
deriving Repr, DecidableEq

/-- The first preview branch (`total <= max_points`): one point per column
entry whose index has a timestamp; `i` is the enumeration index. -/
def enumPoints (ts : List Nat) : Nat → List Nat → List PreviewPoint
  | _, [] => []
  | i, v :: rest =>
      (match ts.get? i with
       | some t => [⟨t, v⟩]
       | none => []) ++ enumPoints ts (i + 1) rest

/-- The stride-sampling loop of the second preview branch: from `i = 0`,
emit the point at `i` (when a timestamp exists) and advance by
`step.max(1)` while `i < total`. -/
def sampleLoop (ts vals : List Nat) (step : Nat) (i : Nat) : List PreviewPoint :=
  if i < vals.length then
    (match ts.get? i with
     | some t => [⟨t, vals.getD i 0⟩]
     | none => []) ++ sampleLoop ts vals step (i + max step 1)
  else []
termination_by vals.length - i
decreasing_by
  have h1 : 1 ≤ max step 1 := Nat.le_max_right step 1
  omega

/-- The stride of the second preview branch. The source computes
`((total as f64) / (max_points as f64)).ceil() as usize`; for list lengths
(far) below 2^53 the f64 divide-then-ceil of two integers is the exact
ceiling division modelled here. -/
def previewStride (total maxPoints : Nat) : Nat := (total + maxPoints - 1) / maxPoints

/-- `RecordBuffer::preview` from state.rs. In the final fix-up the source
guards with `total.checked_sub(1)`, which is `Some (total - 1)` in this
branch since `total ≠ 0`. -/
def RecordBuffer.preview (b : RecordBuffer) (channel maxPoints : Nat) :
    Option PreviewResponse :=
  match positionOf channel b.channels with
  | none => none
  | some idx =>
    match b.values.get? idx with
    | none => none
    | some vals =>
      let total := vals.length
      let duration := b.duration_ms
      if total = 0 ∨ maxPoints = 0 then
        some ⟨[], total, duration⟩
      else if total ≤ maxPoints then
        some ⟨enumPoints b.timestamps 0 vals, total, duration⟩
      else
        let step := previewStride total maxPoints
        let pts := sampleLoop b.timestamps vals step 0
        let pts :=
          if pts.getLast?.map PreviewPoint.t_ms ≠ b.timestamps.getLast? then
            pts ++
              (match b.timestamps.get? (total - 1) with
               | some t => [⟨t, vals.getD (total - 1) 0⟩]
               | none => [])
          else pts
        some ⟨pts, total, duration⟩

/-- `AppState::start_buffered_recording` from state.rs: install a fresh
active buffer with the normalized channels; return the normalized list. -/
def start_buffered_recording_state (channels : List Nat) : RecordBuffer × List Nat :=
  let normalized := normalize_channels channels
  (RecordBuffer.new normalized true, normalized)

/-- `AppState::set_record_channels` from state.rs: reshape the existing
buffer, or create an inactive one when none exists; return the normalized
list. -/
def set_record_channels_state (buffer : Option RecordBuffer) (channels : List Nat) :
    Option RecordBuffer × List Nat :=
  let normalized := normalize_channels channels
  match buffer with
  | some b => (some (b.set_channels normalized), normalized)
  | none => (some (RecordBuffer.new normalized false), normalized)

/-- The `set_channels` Tauri command from main.rs: it replaces the live
512-byte buffer only when exactly 512 values are supplied, and its Rust
signature returns `()` — there is no error path, so the host always
observes success. The second component is the error surfaced to the host,
which is therefore always `none`. -/
def set_channels_command (buf values : List Nat) : List Nat × Option String :=
  if values.length = 512 then (values, none) else (buf, none)

/-- The 1-based → 0-based channel mapping used by the recording commands in
main.rs: `c.saturating_sub(1)` (Nat subtraction is saturating). -/
def to_internal (channels : List Nat) : List Nat :=
  channels.map (fun c => c - 1)

/-- `start_buffered_recording` command from main.rs: map 1-based channels
down, start the ring, map the normalized list back up. -/
def start_buffered_recording_cmd (channels : List Nat) : RecordBuffer × List Nat :=
  let r := start_buffered_recording_state (to_internal channels)
  (r.1, r.2.map (fun c => c + 1))

/-- `set_record_channels` command from main.rs. -/
def set_record_channels_cmd (buffer : Option RecordBuffer) (channels : List Nat) :
    Option RecordBuffer × List Nat :=
  let r := set_record_channels_state buffer (to_internal channels)
  (r.1, r.2.map (fun c => c + 1))

/-- One mutation of the recording ring as reachable from the command
surface: a raw `set_channels`, an `append` with its measured elapsed time,
or the `set_record_channels` path, which normalizes first. -/
inductive RecOp where
  | setChannels (channels : List Nat)
  | appendFrame (frame : DmxFrame) (elapsed : Nat)
  | setRecordChannels (channels : List Nat)

def applyOp (b : RecordBuffer) : RecOp → RecordBuffer
  | .setChannels chs => b.set_channels chs
  | .appendFrame f t => b.append f t
  | .setRecordChannels chs => b.set_channels (normalize_channels chs)

/-- Alignment invariant of the ring: one column per channel, every column
as long as `timestamps`, and `addresses` as long as `timestamps`. -/
def RecordBuffer.Aligned (b : RecordBuffer) : Prop :=
  b.values.length = b.channels.length ∧
  (∀ col ∈ b.values, col.length = b.timestamps.length) ∧
  b.addresses.length = b.timestamps.length

/-- A small concrete ring for exercising `preview`: one selected channel,
three recorded frames. -/
def previewSample : RecordBuffer :=
  { channels := [0]
    timestamps := [10, 20, 30]
    values := [[1, 2, 3]]
    addresses := [(0, 0, 0), (0, 0, 0), (0, 0, 0)]
    active := false }

/-! ## Lemmas and theorems -/

lemma foldl_enumFrom_eq_lastNZAux (l : List Nat) (n acc : Nat) :
    (l.enumFrom n).foldl (fun last iv => if iv.2 ≠ 0 then iv.1 + 1 else last) acc =
      lastNZAux l n acc := by
  induction l generalizing n acc with
  | nil => rfl
  | cons v rest ih => simp only [List.enumFrom, List.foldl_cons, lastNZAux, ih]

lemma lastNonzero_eq_aux (data : List Nat) : lastNonzero data = lastNZAux data 0 0 := by
  simpa [lastNonzero, List.enum] using foldl_enumFrom_eq_lastNZAux data 0 0

lemma lastNZAux_le (l : List Nat) (n acc : Nat) (h : acc ≤ n) :
    lastNZAux l n acc ≤ n + l.length := by
  induction l generalizing n acc with
  | nil => simpa [lastNZAux] using h.trans (Nat.le_add_right n 0)
  | cons v rest ih =>
    simp only [lastNZAux, List.length_cons]
    have : lastNZAux rest (n + 1) (if v ≠ 0 then n + 1 else acc) ≤ (n + 1) + rest.length := by
      apply ih
      split
      · exact Nat.le_refl _
      · exact h.trans (Nat.le_succ n)
    omega

lemma lastNZAux_ge (l : List Nat) (n acc : Nat) (h : acc ≤ n + 1) :
    acc ≤ lastNZAux l n acc := by
  induction l generalizing n acc with
  | nil => exact Nat.le_refl _
  | cons v rest ih =>
    simp only [lastNZAux]
    by_cases hv : v ≠ 0
    · rw [if_pos hv]
      exact h.trans (ih (n + 1) (n + 1) (Nat.le_succ _))
    · rw [if_neg hv]
      exact ih (n + 1) acc (h.trans (Nat.le_succ _))

lemma lastNZAux_of_nonzero (l : List Nat) (n acc : Nat) (j : Nat)
    (hj : j < l.length) (hv : l.getD j 0 ≠ 0) :
    n + j + 1 ≤ lastNZAux l n acc := by
  induction l generalizing n acc j with
  | nil => simp at hj
  | cons v rest ih =>
    simp only [lastNZAux]
    cases j with
    | zero =>
      simp only [List.getD_cons_zero] at hv
      simp only [hv, if_pos, ne_eq, not_false_iff]
      have := lastNZAux_ge rest (n + 1) (n + 1) (Nat.le_succ _)
      simpa using this
    | succ j =>
      simp only [List.getD_cons_succ] at hv
      simp only [List.length_cons] at hj
      have := ih (n + 1) (if v ≠ 0 then n + 1 else acc) j (by omega) hv
      omega

lemma lastNZAux_cases (l : List Nat) (n acc : Nat) :
    lastNZAux l n acc = acc ∨
      ∃ j < l.length, lastNZAux l n acc = n + j + 1 ∧ l.getD j 0 ≠ 0 := by
  induction l generalizing n acc with
  | nil => exact Or.inl rfl
  | cons v rest ih =>
    simp only [lastNZAux]
    rcases ih (n + 1) (if v ≠ 0 then n + 1 else acc) with h | ⟨j, hj, he, hv⟩
    · rw [h]
      by_cases hv : v ≠ 0
      · right
        exact ⟨0, by simp, by simp [hv], by simpa using hv⟩
      · left
        simp [hv]
    · right
      exact ⟨j + 1, by simpa using Nat.succ_lt_succ hj, by omega, by simpa using hv⟩

lemma lastNZAux_of_all_zero (l : List Nat) (n acc : Nat) (h : ∀ v ∈ l, v = 0) :
    lastNZAux l n acc = acc := by
  induction l generalizing n acc with
  | nil => rfl
  | cons v rest ih =>
    have hv : v = 0 := h v (List.mem_cons_self _ _)
    simp only [lastNZAux, hv]
    simpa using ih (n + 1) acc fun w hw => h w (List.mem_cons_of_mem _ hw)

/-- `lastNonzero` is bounded by the buffer length. -/
lemma lastNonzero_le (data : List Nat) : lastNonzero data ≤ data.length := by
  rw [lastNonzero_eq_aux]
  simpa using lastNZAux_le data 0 0 (Nat.le_refl 0)

/-- Every byte at or past `lastNonzero` is zero. -/
lemma lastNonzero_trailing (data : List Nat) (j : Nat)
    (h1 : lastNonzero data ≤ j) (h2 : j < data.length) : data.getD j 0 = 0 := by
  by_contra hv
  have := lastNZAux_of_nonzero data 0 0 j h2 hv
  rw [lastNonzero_eq_aux] at h1
  omega

/-- When `lastNonzero` is positive, the byte just before it is non-zero. -/
lemma lastNonzero_witness (data : List Nat) (h : lastNonzero data ≠ 0) :
    data.getD (lastNonzero data - 1) 0 ≠ 0 := by
  rw [lastNonzero_eq_aux] at h ⊢
  rcases lastNZAux_cases data 0 0 with he | ⟨j, _, he, hv⟩
  · exact absurd he h
  · rw [he]
    simpa using hv

lemma lastNonzero_of_all_zero (data : List Nat) (h : ∀ v ∈ data, v = 0) :
    lastNonzero data = 0 := by
  rw [lastNonzero_eq_aux]
  exact lastNZAux_of_all_zero data 0 0 h

lemma lastNonzero_pos (data : List Nat) (h : ∃ v ∈ data, v ≠ 0) :
    lastNonzero data ≠ 0 := by
  rcases h with ⟨v, hv, hne⟩
  intro h0
  rcases List.getElem_of_mem hv with ⟨j, hj, rfl⟩
  have := lastNonzero_trailing data j (by omega) hj
  rw [List.getD_eq_getElem data 0 hj] at this
  exact hne this

lemma compute_dmx_length_eq_policy (data : List Nat) (hlen : data.length ≤ 512) :
    compute_dmx_length data =
      if lastNonzero data = 0 then 512
      else min (roundUpEven (max (lastNonzero data) 2)) 512 := by
  have hle := (lastNonzero_le data).trans hlen
  simp only [compute_dmx_length, roundUpEven]
  split_ifs <;> try contradiction
  all_goals omega

lemma compute_dmx_length_bounds (data : List Nat) (hlen : data.length ≤ 512) :
    2 ≤ compute_dmx_length data ∧ compute_dmx_length data ≤ 512 ∧
      compute_dmx_length data % 2 = 0 := by
  have hle := (lastNonzero_le data).trans hlen
  simp only [compute_dmx_length]
  split_ifs <;> try contradiction
  all_goals omega

/-- Claim C4: encode length policy. For a 512-byte buffer, `lastNonzero` is
one past the index of the last non-zero byte (first conjunct group); the
encoded length is 512 for an all-zero buffer and otherwise `max(last, 2)`
rounded up to the next even number and capped at 512; in all cases the
length is even and lies in `[2, 512]`. -/
theorem compute_dmx_length_policy (data : List Nat) (hlen : data.length = 512) :
    (lastNonzero data ≤ 512 ∧
      (∀ j, lastNonzero data ≤ j → j < 512 → data.getD j 0 = 0) ∧
      (lastNonzero data ≠ 0 → data.getD (lastNonzero data - 1) 0 ≠ 0)) ∧
    compute_dmx_length data =
      (if lastNonzero data = 0 then 512
       else min (roundUpEven (max (lastNonzero data) 2)) 512) ∧
    compute_dmx_length data % 2 = 0 ∧
    2 ≤ compute_dmx_length data ∧ compute_dmx_length data ≤ 512 := by
  obtain ⟨h2, h512, hev⟩ := compute_dmx_length_bounds data (le_of_eq hlen)
  refine ⟨⟨?_, ?_, lastNonzero_witness data⟩, ?_, hev, h2, h512⟩
  · exact (lastNonzero_le data).trans (le_of_eq hlen)
  · intro j hj1 hj2
    exact lastNonzero_trailing data j hj1 (by omega)
  · exact compute_dmx_length_eq_policy data (le_of_eq hlen)

/-- Witness for claim C4 at the all-zero 512-byte buffer. -/
theorem compute_dmx_length_policy_witness :
    (lastNonzero (List.replicate 512 0) ≤ 512 ∧
      (∀ j, lastNonzero (List.replicate 512 0) ≤ j → j < 512 →
        (List.replicate 512 0).getD j 0 = 0) ∧
      (lastNonzero (List.replicate 512 0) ≠ 0 →
        (List.replicate 512 0).getD (lastNonzero (List.replicate 512 0) - 1) 0 ≠ 0)) ∧
    compute_dmx_length (List.replicate 512 0) =
      (if lastNonzero (List.replicate 512 0) = 0 then 512
       else min (roundUpEven (max (lastNonzero (List.replicate 512 0)) 2)) 512) ∧
    compute_dmx_length (List.replicate 512 0) % 2 = 0 ∧
    2 ≤ compute_dmx_length (List.replicate 512 0) ∧
    compute_dmx_length (List.replicate 512 0) ≤ 512 :=
  compute_dmx_length_policy (List.replicate 512 0) (by rw [List.length_replicate])

/-- An 18-byte ArtDMX header with the canonical ID and OpCode, arbitrary
protocol-version bytes, and a payload at least as long as the declared
big-endian length parses successfully. -/
lemma parse_artdmx_packet (b10 b11 sq ph su nt hi lo : Nat) (payload : List Nat)
    (h : 256 * hi + lo ≤ payload.length) :
    parse_artdmx (0x41 :: 0x72 :: 0x74 :: 0x2d :: 0x4e :: 0x65 :: 0x74 :: 0x00 ::
        0x00 :: 0x50 :: b10 :: b11 :: sq :: ph :: su :: nt :: hi :: lo :: payload) =
      .ok { net := nt, subnet := (su >>> 4) &&& 0x0f, univ := su &&& 0x0f,
            length := 256 * hi + lo, sequence := sq, physical := ph,
            values := payload.take (256 * hi + lo) } := by
  simp only [parse_artdmx]
  rw [if_neg (by simp only [List.length_cons]; omega)]
  rw [if_neg (fun hne => hne rfl)]
  rw [if_neg (fun hne => hne rfl)]
  have g16 : (0x41 :: 0x72 :: 0x74 :: 0x2d :: 0x4e :: 0x65 :: 0x74 :: 0x00 ::
      0x00 :: 0x50 :: b10 :: b11 :: sq :: ph :: su :: nt :: hi :: lo :: payload).getD 16 0 = hi := rfl
  have g17 : (0x41 :: 0x72 :: 0x74 :: 0x2d :: 0x4e :: 0x65 :: 0x74 :: 0x00 ::
      0x00 :: 0x50 :: b10 :: b11 :: sq :: ph :: su :: nt :: hi :: lo :: payload).getD 17 0 = lo := rfl
  rw [g16, g17]
  rw [if_neg (by simp only [List.length_cons]; omega)]
  rfl

lemma subuni_nibbles : ∀ a < 16, ∀ b < 16,
    ((((a <<< 4) ||| b) >>> 4) &&& 0x0f = a) ∧ (((a <<< 4) ||| b) &&& 0x0f = b) := by
  decide

/-- Claim C1: codec round-trip. For a `SenderConfig` in range, a 512-byte
buffer with at least one non-zero byte and any sequence byte,
`parse_artdmx (encode_artdmx cfg b seq)` succeeds and yields a frame whose
first `length` values equal `b[..length]`, whose length is even and in
`[2, 512]`, and whose net/subnet/universe equal the config fields masked by
`0x7F`/`0x0F`/`0x0F`. -/
theorem codec_round_trip (cfg : SenderConfig) (data : List Nat) (seq : Nat)
    (hlen : data.length = 512) (hbytes : ∀ v ∈ data, v < 256)
    (hnz : ∃ v ∈ data, v ≠ 0)
    (hnet : cfg.net < 128) (hsub : cfg.subnet < 16) (huni : cfg.univ < 16) :
    ∃ f, parse_artdmx (encode_artdmx cfg data seq) = .ok f ∧
      f.values = data.take f.length ∧
      f.length % 2 = 0 ∧ 2 ≤ f.length ∧ f.length ≤ 512 ∧
      f.net = cfg.net &&& 0x7f ∧ f.subnet = cfg.subnet &&& 0x0f ∧
      f.univ = cfg.univ &&& 0x0f := by
  obtain ⟨h2, h512, hev⟩ := compute_dmx_length_bounds data (le_of_eq hlen)
  have henc : encode_artdmx cfg data seq =
      0x41 :: 0x72 :: 0x74 :: 0x2d :: 0x4e :: 0x65 :: 0x74 :: 0x00 ::
      0x00 :: 0x50 :: 0x00 :: 0x0e :: seq :: 0 ::
      ((((cfg.subnet &&& 0x0f) <<< 4) ||| (cfg.univ &&& 0x0f)) ::
        (cfg.net &&& 0x7f) ::
        (compute_dmx_length data / 256) :: (compute_dmx_length data % 256) ::
        data.take (compute_dmx_length data)) := rfl
  have hpay : (data.take (compute_dmx_length data)).length = compute_dmx_length data := by
    rw [List.length_take]
    omega
  have hLrec : 256 * (compute_dmx_length data / 256) + compute_dmx_length data % 256 =
      compute_dmx_length data := Nat.div_add_mod _ 256
  have hparse := parse_artdmx_packet 0x00 0x0e seq 0
      (((cfg.subnet &&& 0x0f) <<< 4) ||| (cfg.univ &&& 0x0f)) (cfg.net &&& 0x7f)
      (compute_dmx_length data / 256) (compute_dmx_length data % 256)
      (data.take (compute_dmx_length data)) (by omega)
  rw [hLrec] at hparse
  have hsubm : cfg.subnet &&& 0x0f < 16 := by
    have := Nat.and_le_right (n := cfg.subnet) (m := 0x0f)
    omega
  have hunim : cfg.univ &&& 0x0f < 16 := by
    have := Nat.and_le_right (n := cfg.univ) (m := 0x0f)
    omega
  obtain ⟨hhi, hlow⟩ := subuni_nibbles (cfg.subnet &&& 0x0f) hsubm (cfg.univ &&& 0x0f) hunim
  refine ⟨_, by rw [henc, hparse], ?_, ?_, ?_, ?_, rfl, hhi, hlow⟩
  · simp only
    rw [List.take_take, min_self]
  · exact hev
  · exact h2
  · exact h512

/-- Witness for claim C1: a concrete in-range config and a 512-byte buffer
whose only non-zero byte is the first. -/
theorem codec_round_trip_witness :
    ∃ f, parse_artdmx (encode_artdmx ⟨6454, 1, 2, 3, 44⟩ (7 :: List.replicate 511 0) 9) = .ok f ∧
      f.values = (7 :: List.replicate 511 0).take f.length ∧
      f.length % 2 = 0 ∧ 2 ≤ f.length ∧ f.length ≤ 512 ∧
      f.net = (1 : Nat) &&& 0x7f ∧ f.subnet = (2 : Nat) &&& 0x0f ∧
      f.univ = (3 : Nat) &&& 0x0f :=
  codec_round_trip ⟨6454, 1, 2, 3, 44⟩ (7 :: List.replicate 511 0) 9
    (by rw [List.length_cons, List.length_replicate])
    (by
      intro v hv
      rcases List.mem_cons.mp hv with h | h
      · omega
      · rw [List.eq_of_mem_replicate h]
        omega)
    ⟨7, List.mem_cons_self _ _, by omega⟩
    (by decide) (by decide) (by decide)

/-- `parse_artdmx` with its intermediate let-bindings inlined: a flat
decision tree over the buffer. -/
lemma parse_artdmx_spec (buf : List Nat) :
    parse_artdmx buf =
      if buf.length < 18 then .error .shortPacket
      else if buf.take 8 ≠ ARTNET_ID then .error .notArtNet
      else if buf.getD 8 0 + 256 * buf.getD 9 0 ≠ OP_OUTPUT then .error .unsupportedOp
      else if buf.length < 18 + (256 * buf.getD 16 0 + buf.getD 17 0) then
        .error .lengthMismatch
      else .ok {
        net := buf.getD 15 0
        subnet := (buf.getD 14 0 >>> 4) &&& 0x0f
        univ := buf.getD 14 0 &&& 0x0f
        length := 256 * buf.getD 16 0 + buf.getD 17 0
        sequence := buf.getD 12 0
        physical := buf.getD 13 0
        values := (buf.drop 18).take (256 * buf.getD 16 0 + buf.getD 17 0) } := rfl

/-- A successful parse only extends: appending trailing bytes to a buffer
that parses does not change the result. -/
lemma parse_artdmx_append_ok (buf extra : List Nat) (f : DmxFrame)
    (hf : parse_artdmx buf = .ok f) : parse_artdmx (buf ++ extra) = .ok f := by
  rw [parse_artdmx_spec buf] at hf
  split_ifs at hf with h1 h2 h3 h4
  have hid : buf.take 8 = ARTNET_ID := not_not.mp h2
  have hop : buf.getD 8 0 + 256 * buf.getD 9 0 = OP_OUTPUT := not_not.mp h3
  rw [parse_artdmx_spec (buf ++ extra)]
  have e8 : (buf ++ extra).getD 8 0 = buf.getD 8 0 := List.getD_append _ _ _ _ (by omega)
  have e9 : (buf ++ extra).getD 9 0 = buf.getD 9 0 := List.getD_append _ _ _ _ (by omega)
  have e12 : (buf ++ extra).getD 12 0 = buf.getD 12 0 := List.getD_append _ _ _ _ (by omega)
  have e13 : (buf ++ extra).getD 13 0 = buf.getD 13 0 := List.getD_append _ _ _ _ (by omega)
  have e14 : (buf ++ extra).getD 14 0 = buf.getD 14 0 := List.getD_append _ _ _ _ (by omega)
  have e15 : (buf ++ extra).getD 15 0 = buf.getD 15 0 := List.getD_append _ _ _ _ (by omega)
  have e16 : (buf ++ extra).getD 16 0 = buf.getD 16 0 := List.getD_append _ _ _ _ (by omega)
  have e17 : (buf ++ extra).getD 17 0 = buf.getD 17 0 := List.getD_append _ _ _ _ (by omega)
  have etake : (buf ++ extra).take 8 = buf.take 8 := List.take_append_of_le_length (by omega)
  have edrop : (buf ++ extra).drop 18 = buf.drop 18 ++ extra :=
    List.drop_append_of_le_length (by omega)
  have elen : (buf ++ extra).length = buf.length + extra.length := List.length_append _ _
  have hdl : 256 * buf.getD 16 0 + buf.getD 17 0 ≤ (buf.drop 18).length := by
    rw [List.length_drop]
    omega
  rw [e8, e9, e12, e13, e14, e15, e16, e17, etake, edrop, elen]
  rw [if_neg (by omega), if_neg (not_not_intro hid), if_neg (not_not_intro hop),
    if_neg (by omega)]
  rw [List.take_append_of_le_length hdl]
  exact hf

/-- Claim C3: decode contract. `parse_artdmx` fails exactly on a short
buffer, a wrong ID, a wrong little-endian OpCode, or a buffer shorter than
`18 + Length` (with that order of precedence between the errors); the
protocol-version bytes at offsets 10 and 11 appear in none of the
conditions, so they never cause failure; trailing bytes beyond
`18 + Length` are ignored; and on success `values` has exactly `Length`
bytes (not padded to 512). -/
theorem parse_artdmx_contract (buf extra : List Nat) :
    (parse_artdmx buf = .error .shortPacket ↔ buf.length < 18) ∧
    (parse_artdmx buf = .error .notArtNet ↔
      (18 ≤ buf.length ∧ buf.take 8 ≠ ARTNET_ID)) ∧
    (parse_artdmx buf = .error .unsupportedOp ↔
      (18 ≤ buf.length ∧ buf.take 8 = ARTNET_ID ∧
        buf.getD 8 0 + 256 * buf.getD 9 0 ≠ OP_OUTPUT)) ∧
    (parse_artdmx buf = .error .lengthMismatch ↔
      (18 ≤ buf.length ∧ buf.take 8 = ARTNET_ID ∧
        buf.getD 8 0 + 256 * buf.getD 9 0 = OP_OUTPUT ∧
        buf.length < 18 + (256 * buf.getD 16 0 + buf.getD 17 0))) ∧
    ((∃ f, parse_artdmx buf = .ok f) ↔
      (18 ≤ buf.length ∧ buf.take 8 = ARTNET_ID ∧
        buf.getD 8 0 + 256 * buf.getD 9 0 = OP_OUTPUT ∧
        18 + (256 * buf.getD 16 0 + buf.getD 17 0) ≤ buf.length)) ∧
    (∀ f, parse_artdmx buf = .ok f →
      f.length = 256 * buf.getD 16 0 + buf.getD 17 0 ∧
      f.values.length = f.length ∧
      parse_artdmx (buf ++ extra) = .ok f) := by
  refine ⟨?_, ?_, ?_, ?_, ?_, ?_⟩
  · rw [parse_artdmx_spec]
    split_ifs <;> simp_all
  · rw [parse_artdmx_spec]
    split_ifs <;> simp_all
  · rw [parse_artdmx_spec]
    split_ifs <;> simp_all
  · rw [parse_artdmx_spec]
    split_ifs <;> simp_all
  · rw [parse_artdmx_spec]
    split_ifs <;> simp_all
  · intro f hf
    have happ := parse_artdmx_append_ok buf extra f hf
    rw [parse_artdmx_spec] at hf
    split_ifs at hf with h1 h2 h3 h4
    have hfeq := Except.ok.inj hf
    subst hfeq
    refine ⟨rfl, ?_, happ⟩
    simp only [List.length_take, List.length_drop]
    omega

/-- Witness for claim C3: the contract instantiated at `samplePacket` with
two trailing bytes, exercising the success case and trailing-byte
invariance. -/
theorem parse_artdmx_contract_witness :
    parse_artdmx samplePacket = .ok sampleFrame ∧
    parse_artdmx (samplePacket ++ [1, 2]) = .ok sampleFrame ∧
    sampleFrame.values.length = sampleFrame.length :=
  have h := (parse_artdmx_contract samplePacket [1, 2]).2.2.2.2.2 sampleFrame (by rfl)
  ⟨by rfl, h.2.2, h.2.1⟩

/-- Counterexample to claim C2: `parse_artdmx` accepts `rawNetPacket` and
returns a frame with `net = 255` (outside 0..127) and `length = 1` (odd and
below 2) — the decoder does not enforce the Frame data-model ranges on
`net` or `length`. -/
theorem parse_ranges_counterexample :
    ∃ f, parse_artdmx rawNetPacket = .ok f ∧
      ¬(f.net ≤ 127 ∧ 2 ≤ f.length ∧ f.length ≤ 512 ∧ f.length % 2 = 0) :=
  ⟨⟨255, 0, 0, 1, 0, 0, [42]⟩, by rfl, by decide⟩

/-- Claim C2 (amended): when `parse_artdmx` succeeds on a byte-valued
buffer, the frame has subnet and universe in 0..15 (nibble-masked),
`values.len() == length`, and `net` a raw byte below 256; the decoder does
not constrain `net` to 0..127 nor `length` to the even range 2..512. -/
theorem parse_ranges_amended (buf : List Nat) (hb : ∀ v ∈ buf, v < 256)
    (f : DmxFrame) (hf : parse_artdmx buf = .ok f) :
    f.subnet < 16 ∧ f.univ < 16 ∧ f.values.length = f.length ∧ f.net < 256 := by
  rw [parse_artdmx_spec] at hf
  split_ifs at hf with h1 h2 h3 h4
  have hfeq := Except.ok.inj hf
  subst hfeq
  dsimp only
  refine ⟨?_, ?_, ?_, ?_⟩
  · have := Nat.and_le_right (n := buf.getD 14 0 >>> 4) (m := 0x0f)
    omega
  · have := Nat.and_le_right (n := buf.getD 14 0) (m := 0x0f)
    omega
  · simp only [List.length_take, List.length_drop]
    omega
  · have h15 : 15 < buf.length := by omega
    rw [List.getD_eq_getElem buf 0 h15]
    exact hb _ (List.getElem_mem h15)

/-- Witness for the amended claim C2 at `samplePacket`. -/
theorem parse_ranges_amended_witness :
    sampleFrame.subnet < 16 ∧ sampleFrame.univ < 16 ∧
      sampleFrame.values.length = sampleFrame.length ∧ sampleFrame.net < 256 :=
  parse_ranges_amended samplePacket (by decide) sampleFrame (by rfl)

lemma aligned_new (chs : List Nat) (a : Bool) : (RecordBuffer.new chs a).Aligned := by
  refine ⟨List.length_map _ _, ?_, rfl⟩
  intro col hcol
  rcases List.mem_map.mp hcol with ⟨ch, _, rfl⟩
  rfl

lemma positionOf_lt (target : Nat) (l : List Nat) (i : Nat)
    (h : positionOf target l = some i) : i < l.length := by
  induction l generalizing i with
  | nil => simp [positionOf] at h
  | cons c rest ih =>
    simp only [positionOf] at h
    split_ifs at h with hc
    · cases h
      simp
    · rcases Option.map_eq_some'.mp h with ⟨j, hj, rfl⟩
      have := ih j hj
      simp only [List.length_cons]
      omega

lemma aligned_set_channels (b : RecordBuffer) (chs : List Nat) (hb : b.Aligned) :
    (b.set_channels chs).Aligned := by
  obtain ⟨hvc, hcols, haddr⟩ := hb
  refine ⟨List.length_map _ _, ?_, haddr⟩
  intro col hcol
  rcases List.mem_map.mp hcol with ⟨ch, _, rfl⟩
  cases hpos : positionOf ch b.channels with
  | none => simp [RecordBuffer.set_channels]
  | some idx =>
    have hlt : idx < b.values.length := by
      rw [hvc]
      exact positionOf_lt ch b.channels idx hpos
    have hget := List.get?_eq_get hlt
    simp only [RecordBuffer.set_channels, hget, Option.getD_some]
    exact hcols _ (List.get_mem b.values idx hlt)

lemma pushColumns_length (frame : DmxFrame) (cols : List (List Nat)) (chans : List Nat) :
    (pushColumns frame cols chans).length = cols.length := by
  induction cols generalizing chans with
  | nil => cases chans <;> rfl
  | cons col cols ih =>
    cases chans with
    | nil => rfl
    | cons ch chans => simp [pushColumns, ih]

lemma pushColumns_mem (frame : DmxFrame) (cols : List (List Nat)) (chans : List Nat)
    (hle : cols.length ≤ chans.length) (col : List Nat)
    (hcol : col ∈ pushColumns frame cols chans) :
    ∃ c ∈ cols, col.length = c.length + 1 := by
  induction cols generalizing chans with
  | nil =>
    cases chans <;> simp [pushColumns] at hcol
  | cons c0 cols ih =>
    cases chans with
    | nil => simp at hle
    | cons ch chans =>
      simp only [pushColumns, List.mem_cons] at hcol
      rcases hcol with rfl | hcol
      · exact ⟨c0, List.mem_cons_self _ _, by simp⟩
      · rcases ih chans (by simpa using Nat.le_of_succ_le_succ (by simpa using hle)) hcol with
          ⟨c, hc, hlen⟩
        exact ⟨c, List.mem_cons_of_mem _ hc, hlen⟩

lemma aligned_enforce_limit (b : RecordBuffer) (hb : b.Aligned) :
    (b.enforce_limit).Aligned ∧
      (b.enforce_limit).channels = b.channels ∧
      (b.enforce_limit).active = b.active := by
  obtain ⟨hvc, hcols, haddr⟩ := hb
  unfold RecordBuffer.enforce_limit
  split_ifs with hle
  · exact ⟨⟨hvc, hcols, haddr⟩, rfl, rfl⟩
  · refine ⟨⟨by simpa using hvc, ?_, ?_⟩, rfl, rfl⟩
    · intro col hcol
      rcases List.mem_map.mp hcol with ⟨c, hc, rfl⟩
      have hclen := hcols c hc
      have hMAX : 0 < MAX_RECORD_FRAMES := by decide
      rw [if_pos (by omega)]
      simp only [List.length_drop]
      rw [hclen]
    · simp only [List.length_drop]
      rw [haddr]

lemma aligned_append (b : RecordBuffer) (frame : DmxFrame) (t : Nat) (hb : b.Aligned) :
    (b.append frame t).Aligned := by
  obtain ⟨hvc, hcols, haddr⟩ := hb
  unfold RecordBuffer.append
  split_ifs with hact
  · exact ⟨hvc, hcols, haddr⟩
  · refine (aligned_enforce_limit _ ?_).1
    refine ⟨by simpa [pushColumns_length] using hvc, ?_, by simp [haddr]⟩
    intro col hcol
    have hle : b.values.length ≤ b.channels.length := le_of_eq hvc
    rcases pushColumns_mem frame b.values b.channels hle col hcol with ⟨c, hc, hlen⟩
    simp only [List.length_append, List.length_cons, List.length_nil]
    rw [hlen, hcols c hc]

lemma aligned_applyOp (b : RecordBuffer) (op : RecOp) (hb : b.Aligned) :
    (applyOp b op).Aligned := by
  cases op with
  | setChannels chs => exact aligned_set_channels b chs hb
  | appendFrame f t => exact aligned_append b f t hb
  | setRecordChannels chs => exact aligned_set_channels b _ hb

lemma aligned_foldl (ops : List RecOp) (b : RecordBuffer) (hb : b.Aligned) :
    (ops.foldl applyOp b).Aligned := by
  induction ops generalizing b with
  | nil => exact hb
  | cons op ops ih => exact ih _ (aligned_applyOp b op hb)

/-- Claim C6: column alignment. Starting from a freshly created record
buffer, after any finite sequence of `set_channels`, `append` and
`set_record_channels` operations, every value column has the same length
as `timestamps`, and `timestamps` and `addresses` have equal length. -/
theorem record_buffer_column_alignment (chs : List Nat) (a : Bool) (ops : List RecOp) :
    (∀ col ∈ (ops.foldl applyOp (RecordBuffer.new chs a)).values,
      col.length = (ops.foldl applyOp (RecordBuffer.new chs a)).timestamps.length) ∧
    (ops.foldl applyOp (RecordBuffer.new chs a)).addresses.length =
      (ops.foldl applyOp (RecordBuffer.new chs a)).timestamps.length :=
  (aligned_foldl ops (RecordBuffer.new chs a) (aligned_new chs a)).2

lemma pushColumns_map (frame : DmxFrame) (chs : List Nat) (f : Nat → List Nat) :
    pushColumns frame (chs.map f) chs =
      chs.map (fun ch => f ch ++ [sampleOf ch frame]) := by
  induction chs with
  | nil => rfl
  | cons ch chs ih => simp [pushColumns, ih]

lemma drop_append_shift {α : Type} (L : List α) (z : α) (d k : Nat) (hd : d ≤ L.length) :
    (L.drop d ++ [z]).drop k = (L ++ [z]).drop (d + k) := by
  rw [← List.drop_drop, List.drop_append_of_le_length hd]

lemma col_stepK (A : List Nat) (z : Nat) (d K : Nat) (hd : d ≤ A.length)
    (hK : K ≤ A.length - d) :
    (if K < (A.drop d ++ [z]).length then (A.drop d ++ [z]).drop K else []) =
      (A ++ [z]).drop (d + K) := by
  rw [if_pos (by
    simp only [List.length_append, List.length_drop, List.length_cons, List.length_nil]
    omega)]
  exact drop_append_shift A z d K hd

lemma map_col_stepK (chs : List Nat) (F : Nat → List Nat) (Z : Nat → Nat) (d K D : Nat)
    (hd : ∀ ch, d ≤ (F ch).length) (hK : ∀ ch, K ≤ (F ch).length - d)
    (hDeq : d + K = D) :
    (List.map (fun ch => (F ch).drop d ++ [Z ch]) chs).map
        (fun col => if K < col.length then col.drop K else []) =
      List.map (fun ch => (F ch ++ [Z ch]).drop D) chs := by
  rw [List.map_map]
  apply List.map_congr_left
  intro ch _
  show (if K < ((F ch).drop d ++ [Z ch]).length
      then ((F ch).drop d ++ [Z ch]).drop K else []) = ((F ch ++ [Z ch]).drop D)
  rw [col_stepK (F ch) (Z ch) d K (hd ch) (hK ch), hDeq]

/-- Folding `append` over a fresh active buffer keeps, for each of
timestamps, addresses and columns, exactly the last `MAX_RECORD_FRAMES`
entries of the full per-append history, in order. -/
lemma append_fold_spec (chs : List Nat) (items : List (DmxFrame × Nat)) :
    items.foldl (fun acc it => acc.append it.1 it.2) (RecordBuffer.new chs true) =
      { channels := chs
        timestamps := (items.map Prod.snd).drop (items.length - MAX_RECORD_FRAMES)
        values := chs.map (fun ch =>
          (items.map (fun it => sampleOf ch it.1)).drop (items.length - MAX_RECORD_FRAMES))
        addresses := (items.map (fun it => (it.1.net, it.1.subnet, it.1.univ))).drop
          (items.length - MAX_RECORD_FRAMES)
        active := true } := by
  induction items using List.reverseRecOn with
  | nil => rfl
  | append_singleton l x ih =>
    rw [List.foldl_append, List.foldl_cons, List.foldl_nil, ih]
    have hMAX : 0 < MAX_RECORD_FRAMES := by decide
    have hTlen : (l.map Prod.snd).length = l.length := List.length_map _ _
    have hAlen : (l.map (fun it => (it.1.net, it.1.subnet, it.1.univ))).length = l.length :=
      List.length_map _ _
    unfold RecordBuffer.append
    rw [if_neg (by simp)]
    simp only [pushColumns_map]
    unfold RecordBuffer.enforce_limit
    simp only [List.length_append, List.length_drop, List.length_cons, List.length_nil,
      hTlen, List.map_append, List.map_cons, List.map_nil]
    by_cases hcase : l.length < MAX_RECORD_FRAMES
    · rw [if_pos (by omega)]
      have hd : l.length - MAX_RECORD_FRAMES = 0 := by omega
      have hd2 : l.length + (0 + 1) - MAX_RECORD_FRAMES = 0 := by omega
      simp only [hd, hd2, List.drop_zero]
    · rw [if_neg (by omega)]
      simp only [RecordBuffer.mk.injEq]
      refine ⟨trivial, ?_, ?_, ?_, trivial⟩
      · rw [drop_append_shift (l.map Prod.snd) x.2 (l.length - MAX_RECORD_FRAMES)
          (l.length - (l.length - MAX_RECORD_FRAMES) + (0 + 1) - MAX_RECORD_FRAMES)
          (by rw [hTlen]; omega)]
        have e2 : l.length - MAX_RECORD_FRAMES +
            (l.length - (l.length - MAX_RECORD_FRAMES) + (0 + 1) - MAX_RECORD_FRAMES) =
            l.length + (0 + 1) - MAX_RECORD_FRAMES := by omega
        rw [e2]
      · exact map_col_stepK chs (fun ch => l.map (fun it => sampleOf ch it.1))
          (fun ch => sampleOf ch x.1) (l.length - MAX_RECORD_FRAMES)
          (l.length - (l.length - MAX_RECORD_FRAMES) + (0 + 1) - MAX_RECORD_FRAMES)
          (l.length + (0 + 1) - MAX_RECORD_FRAMES)
          (fun ch => by simp only [List.length_map]; omega)
          (fun ch => by simp only [List.length_map]; omega)
          (by omega)
      · rw [drop_append_shift (l.map (fun it => (it.1.net, it.1.subnet, it.1.univ)))
          (x.1.net, x.1.subnet, x.1.univ) (l.length - MAX_RECORD_FRAMES)
          (l.length - (l.length - MAX_RECORD_FRAMES) + (0 + 1) - MAX_RECORD_FRAMES)
          (by rw [hAlen]; omega)]
        have e3 : l.length - MAX_RECORD_FRAMES +
            (l.length - (l.length - MAX_RECORD_FRAMES) + (0 + 1) - MAX_RECORD_FRAMES) =
            l.length + (0 + 1) - MAX_RECORD_FRAMES := by omega
        rw [e3]

/-- Claim C5: ring cap with FIFO eviction. After `MAX_RECORD_FRAMES + k`
appends to a fresh active buffered recorder, `frame_count` equals
`MAX_RECORD_FRAMES` (200 000), the oldest retained timestamp and address
are the ones recorded by the `(k+1)`-th append, and every eviction dropped
the same number of oldest entries from timestamps, addresses and every
value column (all end with exactly `MAX_RECORD_FRAMES` entries). -/
theorem ring_cap_fifo (chs : List Nat) (items : List (DmxFrame × Nat)) (k : Nat)
    (hlen : items.length = MAX_RECORD_FRAMES + k) :
    (items.foldl (fun acc it => acc.append it.1 it.2)
        (RecordBuffer.new chs true)).frame_count = MAX_RECORD_FRAMES ∧
    (items.foldl (fun acc it => acc.append it.1 it.2)
        (RecordBuffer.new chs true)).timestamps.head? = (items[k]?).map Prod.snd ∧
    (items.foldl (fun acc it => acc.append it.1 it.2)
        (RecordBuffer.new chs true)).addresses.head? =
      (items[k]?).map (fun it => (it.1.net, it.1.subnet, it.1.univ)) ∧
    (items.foldl (fun acc it => acc.append it.1 it.2)
        (RecordBuffer.new chs true)).addresses.length = MAX_RECORD_FRAMES ∧
    (∀ col ∈ (items.foldl (fun acc it => acc.append it.1 it.2)
        (RecordBuffer.new chs true)).values, col.length = MAX_RECORD_FRAMES) := by
  rw [append_fold_spec]
  have hk : items.length - MAX_RECORD_FRAMES = k := by omega
  refine ⟨?_, ?_, ?_, ?_, ?_⟩
  · simp only [RecordBuffer.frame_count, List.length_drop, List.length_map]
    omega
  · simp only [List.head?_drop, hk, List.getElem?_map]
  · simp only [List.head?_drop, hk, List.getElem?_map]
  · simp only [List.length_drop, List.length_map]
    omega
  · intro col hcol
    rcases List.mem_map.mp hcol with ⟨ch, _, rfl⟩
    simp only [List.length_drop, List.length_map]
    omega

/-- Witness for claim C5 at `k = 0`: exactly `MAX_RECORD_FRAMES` appends of
one fixed frame. -/
theorem ring_cap_fifo_witness :
    ((List.replicate MAX_RECORD_FRAMES ((⟨0, 0, 0, 2, 0, 0, [7]⟩ : DmxFrame), 5)).foldl
        (fun acc it => acc.append it.1 it.2)
        (RecordBuffer.new [0] true)).frame_count = MAX_RECORD_FRAMES ∧
    ((List.replicate MAX_RECORD_FRAMES ((⟨0, 0, 0, 2, 0, 0, [7]⟩ : DmxFrame), 5)).foldl
        (fun acc it => acc.append it.1 it.2)
        (RecordBuffer.new [0] true)).timestamps.head? =
      ((List.replicate MAX_RECORD_FRAMES ((⟨0, 0, 0, 2, 0, 0, [7]⟩ : DmxFrame), 5))[0]?).map
        Prod.snd ∧
    ((List.replicate MAX_RECORD_FRAMES ((⟨0, 0, 0, 2, 0, 0, [7]⟩ : DmxFrame), 5)).foldl
        (fun acc it => acc.append it.1 it.2)
        (RecordBuffer.new [0] true)).addresses.head? =
      ((List.replicate MAX_RECORD_FRAMES ((⟨0, 0, 0, 2, 0, 0, [7]⟩ : DmxFrame), 5))[0]?).map
        (fun it => (it.1.net, it.1.subnet, it.1.univ)) ∧
    ((List.replicate MAX_RECORD_FRAMES ((⟨0, 0, 0, 2, 0, 0, [7]⟩ : DmxFrame), 5)).foldl
        (fun acc it => acc.append it.1 it.2)
        (RecordBuffer.new [0] true)).addresses.length = MAX_RECORD_FRAMES ∧
    (∀ col ∈ ((List.replicate MAX_RECORD_FRAMES ((⟨0, 0, 0, 2, 0, 0, [7]⟩ : DmxFrame), 5)).foldl
        (fun acc it => acc.append it.1 it.2)
        (RecordBuffer.new [0] true)).values, col.length = MAX_RECORD_FRAMES) :=
  ring_cap_fifo [0] (List.replicate MAX_RECORD_FRAMES (⟨0, 0, 0, 2, 0, 0, [7]⟩, 5)) 0
    (by rw [List.length_replicate, Nat.add_zero])

lemma enumPoints_eq_zipWith (vals ts : List Nat) (i : Nat) (h : i + vals.length ≤ ts.length) :
    enumPoints ts i vals =
      List.zipWith (fun t v => PreviewPoint.mk t v) (ts.drop i) vals := by
  induction vals generalizing i with
  | nil => simp [enumPoints]
  | cons v rest ih =>
    simp only [List.length_cons] at h
    have hi : i < ts.length := by omega
    have hget : ts.get? i = some ts[i] := by
      rw [List.get?_eq_getElem?]
      exact List.getElem?_eq_getElem hi
    rw [List.drop_eq_getElem_cons hi]
    simp only [enumPoints, hget, List.zipWith_cons_cons, List.singleton_append]
    rw [ih (i + 1) (by omega)]

/-- Claim C7: preview downsampling. For a selected channel whose column
`vals` is aligned with `timestamps`: an empty column or `max_points = 0`
yields an empty point list with the current frame count and duration; a
column no longer than `max_points` yields exactly one point per column
entry, in column order, pairing each timestamp with its value; a longer
column is sampled with stride `ceil(L/M)` (which lies between `floor(L/M)`
and `ceil(L/M)`) and the last emitted point carries the last column
timestamp. -/
theorem preview_downsampling (b : RecordBuffer) (channel maxPoints idx : Nat)
    (vals : List Nat) (hpos : positionOf channel b.channels = some idx)
    (hvals : b.values.get? idx = some vals)
    (hts : b.timestamps.length = vals.length) :
    ((vals.length = 0 ∨ maxPoints = 0) →
      b.preview channel maxPoints =
        some ⟨[], b.timestamps.length, b.duration_ms⟩) ∧
    (0 < vals.length → vals.length ≤ maxPoints →
      b.preview channel maxPoints =
        some ⟨List.zipWith (fun t v => PreviewPoint.mk t v) b.timestamps vals,
          b.timestamps.length, b.duration_ms⟩ ∧
      (List.zipWith (fun t v => PreviewPoint.mk t v) b.timestamps vals).length =
        vals.length) ∧
    (maxPoints ≠ 0 → maxPoints < vals.length →
      ∃ r, b.preview channel maxPoints = some r ∧
        r.frame_count = b.timestamps.length ∧
        r.duration_ms = b.duration_ms ∧
        r.points.getLast?.map PreviewPoint.t_ms = b.timestamps.getLast? ∧
        vals.length / maxPoints ≤ previewStride vals.length maxPoints ∧
        previewStride vals.length maxPoints = (vals.length + maxPoints - 1) / maxPoints) := by
  refine ⟨?_, ?_, ?_⟩
  · intro h0
    simp only [RecordBuffer.preview, hpos, hvals]
    rw [if_pos h0, hts]
  · intro hL hLM
    simp only [RecordBuffer.preview, hpos, hvals]
    rw [if_neg (by omega), if_pos hLM]
    constructor
    · rw [enumPoints_eq_zipWith vals b.timestamps 0 (by omega), List.drop_zero, hts]
    · rw [List.length_zipWith, hts, min_self]
  · intro hM hML
    simp only [RecordBuffer.preview, hpos, hvals]
    rw [if_neg (by omega), if_neg (by omega)]
    have hL1 : 0 < vals.length := by omega
    have hget : b.timestamps.get? (vals.length - 1) = some b.timestamps[vals.length - 1] := by
      rw [List.get?_eq_getElem?]
      exact List.getElem?_eq_getElem (by omega)
    by_cases hfix : (sampleLoop b.timestamps vals (previewStride vals.length maxPoints)
        0).getLast?.map PreviewPoint.t_ms ≠ b.timestamps.getLast?
    · rw [if_pos hfix, hget]
      refine ⟨_, rfl, hts.symm, rfl, ?_, ?_, rfl⟩
      · rw [List.getLast?_concat, List.getLast?_eq_getElem? b.timestamps]
        simp only [hts]
        rw [List.getElem?_eq_getElem (by omega)]
        rfl
      · exact Nat.div_le_div_right (by omega)
    · rw [if_neg hfix]
      rw [not_not] at hfix
      exact ⟨_, rfl, hts.symm, rfl, hfix, Nat.div_le_div_right (by omega), rfl⟩

/-- Witness for claim C7 at `previewSample` with `max_points = 2`. -/
theorem preview_downsampling_witness :
    ((([1, 2, 3] : List Nat).length = 0 ∨ (2 : Nat) = 0) →
      previewSample.preview 0 2 =
        some ⟨[], previewSample.timestamps.length, previewSample.duration_ms⟩) ∧
    (0 < ([1, 2, 3] : List Nat).length → ([1, 2, 3] : List Nat).length ≤ 2 →
      previewSample.preview 0 2 =
        some ⟨List.zipWith (fun t v => PreviewPoint.mk t v) previewSample.timestamps [1, 2, 3],
          previewSample.timestamps.length, previewSample.duration_ms⟩ ∧
      (List.zipWith (fun t v => PreviewPoint.mk t v) previewSample.timestamps
        [1, 2, 3]).length = ([1, 2, 3] : List Nat).length) ∧
    ((2 : Nat) ≠ 0 → 2 < ([1, 2, 3] : List Nat).length →
      ∃ r, previewSample.preview 0 2 = some r ∧
        r.frame_count = previewSample.timestamps.length ∧
        r.duration_ms = previewSample.duration_ms ∧
        r.points.getLast?.map PreviewPoint.t_ms = previewSample.timestamps.getLast? ∧
        ([1, 2, 3] : List Nat).length / 2 ≤ previewStride ([1, 2, 3] : List Nat).length 2 ∧
        previewStride ([1, 2, 3] : List Nat).length 2 =
          (([1, 2, 3] : List Nat).length + 2 - 1) / 2) :=
  preview_downsampling previewSample 0 2 0 [1, 2, 3] (by rfl) (by rfl) (by rfl)

lemma normChannels_go_append (l acc : List Nat) :
    ∃ extra, l.foldl (fun result ch =>
        if ch < 512 ∧ ch ∉ result then result ++ [ch] else result) acc = acc ++ extra ∧
      extra.Sublist l := by
  induction l generalizing acc with
  | nil => exact ⟨[], by simp, List.nil_sublist _⟩
  | cons ch rest ih =>
    simp only [List.foldl_cons]
    by_cases hch : ch < 512 ∧ ch ∉ acc
    · rw [if_pos hch]
      rcases ih (acc ++ [ch]) with ⟨e, he, hs⟩
      refine ⟨ch :: e, ?_, List.Sublist.cons₂ _ hs⟩
      rw [he, List.append_assoc, List.singleton_append]
    · rw [if_neg hch]
      rcases ih acc with ⟨e, he, hs⟩
      exact ⟨e, he, List.Sublist.cons _ hs⟩

lemma normChannels_go_nodup_lt (l : List Nat) : ∀ (acc : List Nat), acc.Nodup →
    (∀ c ∈ acc, c < 512) →
    (l.foldl (fun result ch =>
        if ch < 512 ∧ ch ∉ result then result ++ [ch] else result) acc).Nodup ∧
    ∀ c ∈ l.foldl (fun result ch =>
        if ch < 512 ∧ ch ∉ result then result ++ [ch] else result) acc, c < 512 := by
  induction l with
  | nil => exact fun acc hnd hlt => ⟨hnd, hlt⟩
  | cons ch rest ih =>
    intro acc hnd hlt
    simp only [List.foldl_cons]
    by_cases hch : ch < 512 ∧ ch ∉ acc
    · rw [if_pos hch]
      apply ih
      · have := List.Nodup.concat hch.2 hnd
        rwa [List.concat_eq_append] at this
      · intro c hc
        rcases List.mem_append.mp hc with hc | hc
        · exact hlt c hc
        · rw [List.mem_singleton.mp hc]
          exact hch.1
    · rw [if_neg hch]
      exact ih acc hnd hlt

lemma normChannels_go_complete (l : List Nat) (c : Nat) (hc : c ∈ l) (hlt : c < 512) :
    ∀ acc, c ∈ l.foldl (fun result ch =>
      if ch < 512 ∧ ch ∉ result then result ++ [ch] else result) acc := by
  induction l with
  | nil => simp at hc
  | cons ch rest ih =>
    intro acc
    simp only [List.foldl_cons]
    rcases List.mem_cons.mp hc with rfl | hc2
    · by_cases hch : c < 512 ∧ c ∉ acc
      · rw [if_pos hch]
        rcases normChannels_go_append rest (acc ++ [c]) with ⟨e, he, _⟩
        rw [he]
        simp
      · rw [if_neg hch]
        have hmem : c ∈ acc := by
          by_contra hna
          exact hch ⟨hlt, hna⟩
        rcases normChannels_go_append rest acc with ⟨e, he, _⟩
        rw [he]
        exact List.mem_append_left _ hmem
    · by_cases hch : ch < 512 ∧ ch ∉ acc
      · rw [if_pos hch]
        exact ih hc2 (acc ++ [ch])
      · rw [if_neg hch]
        exact ih hc2 acc

/-- Claim C9: effect of `set_record_channels` on an existing record buffer.
The channel list is normalized (order-preserving, deduplicated, entries
≥ 512 dropped, in-range entries all kept); each retained channel that was
already selected reuses its existing column verbatim; each newly selected
channel gets a zero-filled column of the current frame count; timestamps
and addresses are untouched; and the operation ignores (and preserves) the
`active` flag, so it also works while the recorder is inactive. -/
theorem set_record_channels_effect (b : RecordBuffer) (new : List Nat)
    (hAl : b.values.length = b.channels.length) :
    (normalize_channels new).Sublist new ∧
    (normalize_channels new).Nodup ∧
    (∀ c ∈ normalize_channels new, c < 512) ∧
    (∀ c ∈ new, c < 512 → c ∈ normalize_channels new) ∧
    set_record_channels_state (some b) new =
      (some (b.set_channels (normalize_channels new)), normalize_channels new) ∧
    (b.set_channels (normalize_channels new)).channels = normalize_channels new ∧
    (b.set_channels (normalize_channels new)).timestamps = b.timestamps ∧
    (b.set_channels (normalize_channels new)).addresses = b.addresses ∧
    (b.set_channels (normalize_channels new)).active = b.active ∧
    (b.set_channels (normalize_channels new)).values.length =
      (normalize_channels new).length ∧
    (∀ i ch j, (normalize_channels new).get? i = some ch →
      positionOf ch b.channels = some j →
      ∃ col, b.values.get? j = some col ∧
        (b.set_channels (normalize_channels new)).values.get? i = some col) ∧
    (∀ i ch, (normalize_channels new).get? i = some ch →
      positionOf ch b.channels = none →
      (b.set_channels (normalize_channels new)).values.get? i =
        some (List.replicate b.timestamps.length 0)) := by
  obtain ⟨e, he, hs⟩ := normChannels_go_append new []
  obtain ⟨hnd, hlt⟩ := normChannels_go_nodup_lt new [] List.nodup_nil (by simp)
  refine ⟨?_, hnd, hlt, ?_, rfl, rfl, rfl, rfl, rfl, List.length_map _ _, ?_, ?_⟩
  · unfold normalize_channels
    rw [he, List.nil_append]
    exact hs
  · exact fun c hc hlt2 => normChannels_go_complete new c hc hlt2 []
  · intro i ch j hi hj
    have hjlt : j < b.values.length := by
      rw [hAl]
      exact positionOf_lt ch b.channels j hj
    have hget := List.get?_eq_get hjlt
    refine ⟨b.values.get ⟨j, hjlt⟩, hget, ?_⟩
    show (List.map _ (normalize_channels new)).get? i = _
    rw [List.get?_map, hi]
    simp only [Option.map_some']
    rw [hj]
    simp only [hget, Option.getD_some]
  · intro i ch hi hj
    show (List.map _ (normalize_channels new)).get? i = _
    rw [List.get?_map, hi]
    simp only [Option.map_some']
    rw [hj]

/-- Witness for claim C9: reshape `previewSample` (whose single selected
channel 0 has column `[1,2,3]`) to channels `[0, 600, 5, 0]`, which
normalizes to `[0, 5]`. -/
theorem set_record_channels_effect_witness :
    (normalize_channels [0, 600, 5, 0]).Sublist [0, 600, 5, 0] ∧
    (normalize_channels [0, 600, 5, 0]).Nodup ∧
    (∀ c ∈ normalize_channels [0, 600, 5, 0], c < 512) ∧
    (∀ c ∈ [0, 600, 5, 0], c < 512 → c ∈ normalize_channels [0, 600, 5, 0]) ∧
    set_record_channels_state (some previewSample) [0, 600, 5, 0] =
      (some (previewSample.set_channels (normalize_channels [0, 600, 5, 0])),
        normalize_channels [0, 600, 5, 0]) ∧
    (previewSample.set_channels (normalize_channels [0, 600, 5, 0])).channels =
      normalize_channels [0, 600, 5, 0] ∧
    (previewSample.set_channels (normalize_channels [0, 600, 5, 0])).timestamps =
      previewSample.timestamps ∧
    (previewSample.set_channels (normalize_channels [0, 600, 5, 0])).addresses =
      previewSample.addresses ∧
    (previewSample.set_channels (normalize_channels [0, 600, 5, 0])).active =
      previewSample.active ∧
    (previewSample.set_channels (normalize_channels [0, 600, 5, 0])).values.length =
      (normalize_channels [0, 600, 5, 0]).length ∧
    (∀ i ch j, (normalize_channels [0, 600, 5, 0]).get? i = some ch →
      positionOf ch previewSample.channels = some j →
      ∃ col, previewSample.values.get? j = some col ∧
        (previewSample.set_channels
          (normalize_channels [0, 600, 5, 0])).values.get? i = some col) ∧
    (∀ i ch, (normalize_channels [0, 600, 5, 0]).get? i = some ch →
      positionOf ch previewSample.channels = none →
      (previewSample.set_channels (normalize_channels [0, 600, 5, 0])).values.get? i =
        some (List.replicate previewSample.timestamps.length 0)) :=
  set_record_channels_effect previewSample [0, 600, 5, 0] (by rfl)

/-- Counterexample to claim C8: with a 3-element values vector (length
≠ 512), the `set_channels` command surfaces no error to the host (the
error component is `none`, since the Rust command returns `()`), leaving
the live buffer unchanged: no `ConfigError` reaches the host. -/
theorem set_channels_silent_counterexample :
    (set_channels_command (List.replicate 512 0) [1, 2, 3]).2 = none ∧
    (set_channels_command (List.replicate 512 0) [1, 2, 3]).1 = List.replicate 512 0 :=
  ⟨rfl, rfl⟩

/-- Claim C8 (amended): for every values vector whose length is not 512,
the `set_channels` command leaves the live 512-byte buffer unchanged and
silently reports success (no `ConfigError` is surfaced: the command's Rust
signature has no error path). -/
theorem set_channels_silent (buf values : List Nat) (h : values.length ≠ 512) :
    set_channels_command buf values = (buf, none) := by
  unfold set_channels_command
  rw [if_neg h]

/-- Witness for the amended claim C8. -/
theorem set_channels_silent_witness :
    set_channels_command (List.replicate 512 0) [1, 2, 3] = (List.replicate 512 0, none) :=
  set_channels_silent (List.replicate 512 0) [1, 2, 3] (by decide)

/-- Claim C10: the command interface maps the 1-based channel number 0 by
saturating subtraction to internal index 0 — the same index as channel 1 —
rather than rejecting it: `[0]` and `[1]` produce identical commands, and
`[0, 1]` normalizes to the single channel 1 (internal index 0). -/
theorem channel_zero_saturates :
    to_internal [0] = to_internal [1] ∧
    to_internal [0] = [0] ∧
    start_buffered_recording_cmd [0] = start_buffered_recording_cmd [1] ∧
    normalize_channels (to_internal [0, 1]) = [0] ∧
    start_buffered_recording_cmd [0, 1] = start_buffered_recording_cmd [1] ∧
    (start_buffered_recording_cmd [0, 1]).2 = [1] ∧
    (∀ buffer, set_record_channels_cmd buffer [0] = set_record_channels_cmd buffer [1]) ∧
    (∀ cs : List Nat, to_internal (0 :: cs) = to_internal (1 :: cs)) :=
  ⟨rfl, rfl, rfl, rfl, rfl, rfl, fun _ => rfl, fun _ => rfl⟩
